import Mathlib

/-!
# A shallow embedding of the `osmem` memory allocator

This file models the allocator implemented in `src/osmem.c`: an arena of
heap blocks managed through in-band headers (`struct block_meta`), a
first-fit/best-fit search, splitting, coalescing, and the four public
operations `os_malloc`, `os_calloc`, `os_free`, `os_realloc`.

Modelling conventions:
* Pointers are natural numbers; the null pointer is `0`, as in C.
* `size_t` arithmetic is `Nat`; the one place where 64-bit wrap-around is
  observable (the `ALIGN` macro applied to a possibly-overflowed sum) takes
  an explicit `% 2 ^ 64`.
* A block header is metadata `(addr, size, status)`; `addr` is the address
  of the header itself and the usable payload starts at `addr + META_SIZE`.
* Byte memory is a total function `Nat → Nat`; header words are kept in the
  metadata layer, so a read that strays past a payload returns unspecified
  (but defined) bytes, matching the fact that such reads are outside any
  contract of the source.
* The OS primitives `sbrk`/`mmap` are assumed to succeed inside the main
  state-transition functions; the two claims about failure handling
  (`brk_block`'s and `os_realloc`'s reaction to a failed `sbrk`) are settled
  on dedicated embeddings of exactly those code paths, in which the raw
  `sbrk` return value is an explicit parameter.
-/

set_option maxHeartbeats 1600000

namespace OSMem

/-- Block status, from `block_meta.h` (`STATUS_FREE`, `STATUS_ALLOC`,
`STATUS_MAPPED`). -/
inductive Status where
  | free
  | alloc
  | mapped
  deriving Repr, DecidableEq

/-- One in-band block header (`struct block_meta`): its address, its total
size in bytes (header included) and its status.  The `prev`/`next` links of
the C struct are represented by the position of the block inside the state's
block list. -/
structure Block where
  addr : Nat
  size : Nat
  status : Status
  deriving Repr, DecidableEq

/-- Modelled from the spec: `block_meta.h` is not under `src/`.  The header
records a `size_t` size, an `int` status and two pointers (spec section 3),
which occupy 32 bytes on the 64-bit ABI the code targets. -/
def META_SIZE : Nat := 32

/-- `#define ALIGNMENT 8`. -/
def ALIGNMENT : Nat := 8

/-- `#define MMAP_THRESHOLD (128 * 1024)`. -/
def MMAP_THRESHOLD : Nat := 131072

/-- Modelled from the spec: `PAGE_SIZE` is `sysconf(_SC_PAGESIZE)`, one
virtual-memory page, 4096 bytes on the reference platform. -/
def PAGE_SIZE : Nat := 4096

/-- `#define SIZE_MAX 4294967295`: the source's own (32-bit) constant used
to initialise the best-fit search, although `size_t` is 64-bit. -/
def SIZE_MAX : Nat := 4294967295

/-- The `sbrk` failure sentinel `(void *)-1` read as an address. -/
def SBRK_FAIL : Nat := 2 ^ 64 - 1

/-- `#define ALIGN(size) (((size) + (ALIGNMENT - 1)) & ~(ALIGNMENT - 1))`,
evaluated in `size_t` arithmetic: add 7 modulo `2 ^ 64`, then clear the low
three bits. -/
def ALIGN (x : Nat) : Nat := (x + 7) % 2 ^ 64 / 8 * 8

/-- The allocator state: the arena block list reachable from `global_base`
(in list order, i.e. the order of the `next` links), the `last` pointer
(address of the block it points to, if any), the current program break, the
`prealloc` flag, byte memory, and the mapped (non-arena) blocks together
with the address at which the next `mmap` region will be placed. -/
structure AState where
  blocks : List Block
  last : Option Nat
  brk : Nat
  prealloc : Bool
  mem : Nat → Nat
  nextMap : Nat
  mapped : List Block

/-- Locate the header at address `a`, as the C code does when it follows a
pointer into a header. -/
def lookupBlock (st : AState) (a : Nat) : Option Block :=
  (st.blocks ++ st.mapped).find? fun c => c.addr == a

/-- Rewrite the status of the block at address `a`. -/
def setStatusL (a : Nat) (s : Status) : List Block → List Block :=
  List.map fun c => if c.addr = a then { c with status := s } else c

/-- Rewrite the size of the block at address `a`. -/
def setSizeL (a : Nat) (n : Nat) : List Block → List Block :=
  List.map fun c => if c.addr = a then { c with size := n } else c

/-- Rewrite the status of the block at address `a` inside a state. -/
def setStatusA (st : AState) (a : Nat) (s : Status) : AState :=
  { st with blocks := setStatusL a s st.blocks }

/-- Rewrite the size of the block at address `a` inside a state. -/
def setSizeA (st : AState) (a : Nat) (n : Nat) : AState :=
  { st with blocks := setSizeL a n st.blocks }

/-- Insert `nb` directly after the block whose header is at `a`
(`block->prev = last; block->next = last->next; last->next = block`). -/
def insertAfter (a : Nat) (nb : Block) : List Block → List Block
  | [] => []
  | c :: r => if c.addr = a then c :: nb :: r else c :: insertAfter a nb r

/-- `memset(dst, v, n)` on the byte memory. -/
def memsetM (m : Nat → Nat) (dst v n : Nat) : Nat → Nat :=
  fun a => if dst ≤ a ∧ a < dst + n then v else m a

/-- `memcpy(dst, src, n)` on the byte memory (the two ranges never overlap
in the uses the allocator makes of it). -/
def memcpyM (m : Nat → Nat) (dst src n : Nat) : Nat → Nat :=
  fun a => if dst ≤ a ∧ a < dst + n then m (src + (a - dst)) else m a

/-- `brk_block` (src lines 29–57), success path: the new block is carved at
the current break, tagged `STATUS_ALLOC`, linked after `last` (or made the
whole list when `last` is null, in which case the list was empty), and
`last` is moved to it.  `global_base` is the head of `blocks`, so the
assignment `global_base = block` performed later by `os_malloc` is implicit
here.  The behaviour on a failed `sbrk` is the subject of
`brk_block_outcome` below. -/
def brk_block (st : AState) (size : Nat) : Nat × AState :=
  if size = 0 then (0, st)
  else
    let b : Block := ⟨st.brk, size, .alloc⟩
    let blocks' :=
      match st.last with
      | none => [b]
      | some la => insertAfter la b st.blocks
    (st.brk, { st with blocks := blocks', last := some st.brk, brk := st.brk + size })

/-- `splitL a n l`: divide the block whose header is at `a` into a prefix
of total size `n` and a fresh `STATUS_FREE` remainder, as `split_block`
does once its guard has passed. -/
def splitL (a n : Nat) : List Block → List Block
  | [] => []
  | c :: r =>
    if c.addr = a then { c with size := n } :: ⟨a + n, c.size - n, .free⟩ :: r
    else c :: splitL a n r

/-- `split_block` (src lines 62–93).  Callers only invoke it with
`n ≤ block->size`, so the `size_t` subtraction computing the remainder is
an ordinary `Nat` subtraction here.  When `last` pointed at the split block
it is moved to the remainder (src lines 91–92). -/
def split_block (st : AState) (a n : Nat) : AState :=
  match st.blocks.find? fun c => c.addr == a with
  | none => st
  | some b =>
    if b.size - n < META_SIZE + ALIGNMENT then st
    else
      { st with
        blocks := splitL a n st.blocks
        last := if st.last = some a then some (a + n) else st.last }

/-- The body of the `while` loop of `coalesce_blocks`: absorb the longest
run of `STATUS_FREE` blocks standing directly after `b`, summing sizes. -/
def absorbRun (b : Block) : List Block → Block × List Block
  | [] => (b, [])
  | c :: r =>
    if c.status = .free then absorbRun { b with size := b.size + c.size } r
    else (b, c :: r)

theorem absorbRun_len (b : Block) (l : List Block) :
    (absorbRun b l).2.length ≤ l.length := by
  induction l generalizing b with
  | nil => simp [absorbRun]
  | cons c r ih =>
    by_cases h : c.status = .free
    · simpa [absorbRun, h] using (ih _).trans (Nat.le_succ _)
    · simp [absorbRun, h]

/-- `coalesce_blocks` applied at the block whose header is at `a`
(src lines 96–111): a no-op unless that block is `STATUS_FREE`; otherwise
it absorbs the free run after it, and if the run reached the end of the
list, `last` is moved to the merged block. -/
def coalesceAtGo (a : Nat) (la : Option Nat) : List Block → List Block × Option Nat
  | [] => ([], la)
  | c :: r =>
    if c.addr = a then
      if c.status = .free then
        let p := absorbRun c r
        (p.1 :: p.2, if r ≠ [] ∧ p.2 = [] then some c.addr else la)
      else (c :: r, la)
    else
      let q := coalesceAtGo a la r
      (c :: q.1, q.2)

/-- `coalesce_blocks(block)` on a state, addressing the block by its
header address. -/
def coalesce_blocks (st : AState) (a : Nat) : AState :=
  let p := coalesceAtGo a st.last st.blocks
  { st with blocks := p.1, last := p.2 }

/-- The traversal of `coalesce_everywhere` (src lines 114–125), written
with an explicit fuel so the recursion is structural: walk the list from
`global_base`, running the absorb loop from every `STATUS_FREE` block, and
continue from the block after the merged run.  The fuel never runs out
when it starts at the length of the list (`coalesceGo` below), because the
absorb loop only shortens the remainder. -/
def coalesceFuel : Nat → Option Nat → List Block → List Block × Option Nat
  | 0, la, l => (l, la)
  | _ + 1, la, [] => ([], la)
  | fuel + 1, la, b :: r =>
    if b.status = .free then
      let p := absorbRun b r
      let la' := if r ≠ [] ∧ p.2 = [] then some b.addr else la
      let q := coalesceFuel fuel la' p.2
      (p.1 :: q.1, q.2)
    else
      let q := coalesceFuel fuel la r
      (b :: q.1, q.2)

/-- The traversal of `coalesce_everywhere` on a whole list. -/
def coalesceGo (la : Option Nat) (l : List Block) : List Block × Option Nat :=
  coalesceFuel l.length la l

/-- `coalesce_everywhere()` on a state. -/
def coalesce_everywhere (st : AState) : AState :=
  let p := coalesceGo st.last st.blocks
  { st with blocks := p.1, last := p.2 }

/-- The scanning loop of `find_best_fit` (src lines 135–145): keep the
first `STATUS_FREE` block of size at least `size` that is strictly smaller
than the best size found so far, starting from the 32-bit `SIZE_MAX`
constant. -/
def scanGo (size : Nat) : List Block → Option Block → Nat → Option Block × Nat
  | [], best, bsz => (best, bsz)
  | c :: r, best, bsz =>
    if c.status = .free ∧ size ≤ c.size ∧ c.size < bsz then scanGo size r (some c) c.size
    else scanGo size r best bsz

/-- `find_best_fit` (src lines 130–159).  After the scan, if the block
`last` points to is `STATUS_FREE`, smaller than the request, and the best
size found is still strictly greater than the request, that block is grown
in place: `sbrk` provides the shortfall (assumed to succeed here; on
failure the source falls back to the scan result) and its size is set to
the request. -/
def find_best_fit (st : AState) (size : Nat) : Option Block × AState :=
  let p := scanGo size st.blocks none SIZE_MAX
  match st.last with
  | none => (p.1, st)
  | some la =>
    match st.blocks.find? fun c => c.addr == la with
    | none => (p.1, st)
    | some lb =>
      if lb.status = .free ∧ lb.size < size ∧ size < p.2 then
        (some { lb with size := size },
          { st with
            blocks := setSizeL la size st.blocks
            brk := st.brk + (size - lb.size) })
      else (p.1, st)

/-- `os_malloc` (src lines 161–212).  The `mmap` branch places the region
at `nextMap` (assumed to succeed).  On the first small request the arena is
pre-allocated with one `MMAP_THRESHOLD`-sized block, split if the remainder
is worth keeping, and then — reproducing src lines 189–191 — `global_base`
and `last` are both set to that first block. -/
def os_malloc (st : AState) (size : Nat) : Nat × AState :=
  if size = 0 then (0, st)
  else
    let blk_size := ALIGN (size + META_SIZE)
    if MMAP_THRESHOLD ≤ blk_size then
      let b : Block := ⟨st.nextMap, blk_size, .mapped⟩
      (b.addr + META_SIZE,
        { st with mapped := st.mapped ++ [b], nextMap := st.nextMap + blk_size })
    else if st.prealloc = false then
      let p := brk_block st MMAP_THRESHOLD
      let st2 :=
        if blk_size < MMAP_THRESHOLD then split_block p.2 p.1 blk_size else p.2
      (p.1 + META_SIZE, { st2 with prealloc := true, last := some p.1 })
    else
      let st1 := coalesce_everywhere st
      let q := find_best_fit st1 blk_size
      match q.1 with
      | some b =>
        let st3 := if blk_size < b.size then split_block q.2 b.addr blk_size else q.2
        (b.addr + META_SIZE, setStatusA st3 b.addr .alloc)
      | none =>
        let r := brk_block q.2 blk_size
        (r.1 + META_SIZE, r.2)

/-- `os_free` (src lines 214–232): no-op on null and on already-free
blocks; mapped blocks are unmapped (removed from the mapped list, `munmap`
assumed to succeed); arena blocks are merely marked `STATUS_FREE`.
A pointer that matches no header is outside the source's contract and is
modelled as a no-op; no theorem below exercises that case. -/
def os_free (st : AState) (p : Nat) : AState :=
  if p = 0 then st
  else
    let a := p - META_SIZE
    match lookupBlock st a with
    | none => st
    | some b =>
      if b.status = .free then st
      else if b.status = .mapped then
        { st with mapped := st.mapped.filter fun c => c.addr != a }
      else setStatusA st a .free

/-- `os_calloc` (src lines 234–265).  Note the threshold here is
`PAGE_SIZE`, not `MMAP_THRESHOLD`, and that when the inner `os_malloc`
returns null the function falls through to `return (void *)(block + 1)`,
i.e. it returns null plus the header size. -/
def os_calloc (st : AState) (nmemb size : Nat) : Nat × AState :=
  if size = 0 ∨ nmemb = 0 then (0, st)
  else
    let blk_size := ALIGN (size * nmemb + META_SIZE)
    if PAGE_SIZE ≤ blk_size then
      let b : Block := ⟨st.nextMap, blk_size, .mapped⟩
      let st1 := { st with mapped := st.mapped ++ [b], nextMap := st.nextMap + blk_size }
      (b.addr + META_SIZE,
        { st1 with mem := memsetM st1.mem (b.addr + META_SIZE) 0 (blk_size - META_SIZE) })
    else
      let q := os_malloc st (blk_size - META_SIZE)
      if q.1 ≠ 0 then (q.1, { q.2 with mem := memsetM q.2.mem q.1 0 (blk_size - META_SIZE) })
      else (q.1 + META_SIZE, q.2)

/-- Result of `os_realloc`: either a returned pointer together with the
state after the call, or `ub` when the source would read through a header
that no longer exists (e.g. after the block was unmapped). -/
inductive RRes where
  | ub
  | ret (p : Nat) (st : AState)

/-- The returned pointer of an `os_realloc` call, if the call is defined. -/
def RRes.outPtr : RRes → Option Nat
  | .ub => none
  | .ret p _ => some p

/-- `os_realloc` (src lines 267–328).  Faithful to the source, the
`MAPPED`-or-large branch (src lines 284–290) has no `return`: after
allocating the fresh region, copying, and freeing the old block, control
falls through to the small-size state machine, re-reading the old header.
The in-place `sbrk` extension of the `last` block (src lines 298–307) is
taken with `sbrk` assumed to succeed; its behaviour on a failed `sbrk` is
the subject of `realloc_extend_last` below. -/
def os_realloc (st : AState) (p size : Nat) : RRes :=
  if size = 0 then .ret 0 (os_free st p)
  else if p = 0 then
    let q := os_malloc st size
    .ret q.1 q.2
  else
    let a := p - META_SIZE
    let new_size := ALIGN (size + META_SIZE)
    if a = 0 then .ret 0 st
    else
      match lookupBlock st a with
      | none => .ub
      | some b =>
        if b.status = .free then .ret 0 st
        else
          let st1 :=
            if b.status = .mapped ∨ MMAP_THRESHOLD ≤ new_size then
              let q := os_malloc st size
              os_free { q.2 with mem := memcpyM q.2.mem q.1 p (b.size - META_SIZE) } p
            else st
          match lookupBlock st1 a with
          | none => .ub
          | some b1 =>
            if new_size ≤ b1.size then .ret p (split_block st1 a new_size)
            else if st1.last = some a then
              .ret p { setSizeA st1 a new_size with brk := st1.brk + (new_size - b1.size) }
            else
              let st2 := coalesce_blocks st1 a
              match lookupBlock st2 a with
              | none => .ub
              | some b2 =>
                if new_size ≤ b2.size then .ret p (split_block st2 a new_size)
                else
                  let q := os_malloc st2 size
                  match lookupBlock q.2 (q.1 - META_SIZE) with
                  | none => .ub
                  | some nb =>
                    .ret q.1
                      (os_free { q.2 with mem := memcpyM q.2.mem q.1 p (nb.size - META_SIZE) } p)

/-- Outcome of one `brk_block` call, in the embedding that keeps the raw
`sbrk` results explicit. -/
inductive BrkOut where
  | died
  | nullPtr
  | ok (a : Nat)
  deriving Repr, DecidableEq

/-- The control flow of `brk_block` (src lines 29–57) with the two `sbrk`
results explicit: `cur` is `sbrk(0)` (the current break) and `req` the raw
value returned by `sbrk(size)`.  `DIE(assertion, msg)` is modelled from the
spec: the fatal-error facility terminates the process when the assertion
holds (` died`); `sbrk` returns the previous break on success and
`(void *)-1` on failure (spec section 6, boundary collaborator (a)). -/
def brk_block_outcome (size cur req : Nat) : BrkOut :=
  if size = 0 then .nullPtr
  else if req ≠ cur then .died
  else if req = SBRK_FAIL then .nullPtr
  else .ok cur

/-- Outcome of the in-place tail extension inside `os_realloc`. -/
inductive ExtOut where
  | died
  | ret (p newSize : Nat)
  deriving Repr, DecidableEq

/-- The tail-extension branch of `os_realloc` (src lines 298–308) with the
raw `sbrk(missing_size)` return value explicit: `DIE(!new_ptr, ...)` kills
the process only when that value is null, after which the block size is
unconditionally set to `newSize` and the original pointer returned.
`DIE` is modelled from the spec as in `brk_block_outcome`. -/
def realloc_extend_last (ptr newSize sbrkRes : Nat) : ExtOut :=
  if sbrkRes = 0 then .died
  else .ret ptr newSize

/-- The fresh state before any call: empty arena, null `global_base` and
`last`, a conventional initial break of 4096, and `mmap` regions placed
from `2 ^ 40` upward. -/
def initState (m : Nat → Nat) : AState :=
  { blocks := [], last := none, brk := 4096, prealloc := false
    mem := m, nextMap := 2 ^ 40, mapped := [] }

end OSMem


namespace OSMem

/-! ## Concrete states used by the counterexamples and bug witnesses -/

/-- The arena state reached after the very first small allocation
(`os_malloc 8` on a fresh state): one 40-byte allocated block followed by
the free remainder of the 128 KiB pre-allocation, with `last` still aimed
at the first block by src line 191. -/
def stAfterFirstMalloc : AState :=
  { blocks := [⟨4096, 40, .alloc⟩, ⟨4136, 131032, .free⟩], last := some 4096
    brk := 135168, prealloc := true, mem := fun _ => 5, nextMap := 2 ^ 40, mapped := [] }

/-- An arena with a 48-byte free block, a 40-byte allocated block, and a
40-byte free tail, `last` on the tail. -/
def stTwoFree : AState :=
  { blocks := [⟨4096, 48, .free⟩, ⟨4144, 40, .alloc⟩, ⟨4184, 40, .free⟩]
    last := some 4184, brk := 4224, prealloc := true, mem := fun _ => 0
    nextMap := 2 ^ 40, mapped := [] }

/-- An arena holding one huge (`2 ^ 32`-byte) free block. -/
def stHugeFree : AState :=
  { blocks := [⟨4096, 2 ^ 32, .free⟩], last := some 4096, brk := 4096 + 2 ^ 32
    prealloc := true, mem := fun _ => 0, nextMap := 2 ^ 40, mapped := [] }

/-! ## Claims settled by direct evaluation -/

/-- C1 (code bug): resizing a small allocated arena block to a size at or
above the mapping threshold does not end with the address of the freshly
mapped region being returned: the branch at src lines 284–290 allocates the
new region, copies and frees the old block but has no `return`, control
falls through into the small-size state machine on the already-freed
header, and in the state reached after the first allocation the call
returns the original pointer `4128` (the fresh mapped region sits at
`2 ^ 40 + 32`). -/
theorem C1_realloc_large_returns_old_ptr :
    (os_realloc stAfterFirstMalloc 4128 200000).outPtr = some 4128 := by decide

/-- C2 (counterexample): with a sufficient free block of size 48 present, a
request of 44 still grows the free, undersized tail in place and returns
the tail (the guard at src line 147 only requires `best_fit_size > size`,
i.e. the absence of an *exact* fit, not the absence of any fit); moreover a
free block of size `2 ^ 32` is never selected by the scan because its
initial bound is the source's 32-bit `SIZE_MAX` constant. -/
theorem C2_find_best_fit_cex :
    (⟨4096, 48, .free⟩ : Block) ∈ stTwoFree.blocks ∧ (44 : Nat) ≤ 48 ∧
      (find_best_fit stTwoFree 44).1 = some ⟨4184, 44, .free⟩ ∧
      (⟨4096, 2 ^ 32, .free⟩ : Block) ∈ stHugeFree.blocks ∧ (64 : Nat) ≤ 2 ^ 32 ∧
      (find_best_fit stHugeFree 64).1 = none := by decide

/-- C3 (code bug): when `sbrk` reports "cannot be satisfied" by returning
the `(void *)-1` sentinel, `brk_block` does not return the null "no block"
result: the assertion `DIE(req != (void *)block, ...)` at src line 37 sees
`req` differ from the old break and terminates the process first, making
the null-return at src lines 39–40 unreachable; the success path is
unaffected. -/
theorem C3_brk_block_dies_on_sbrk_fail :
    brk_block_outcome 4096 1048576 SBRK_FAIL = .died ∧
      brk_block_outcome 4096 1048576 1048576 = .ok 1048576 := by decide

/-- C4 (code bug): after the very first small allocation (`os_malloc 100`
on a fresh state) the `last` pointer aims at the returned allocated prefix
(header address 4096), not at the highest-address block of the list (the
split-off free remainder at 4232): src line 191 `last = block` overrides
the update `last = new_block` that `split_block` performed at src
lines 91–92. -/
theorem C4_last_is_prefix_after_first_malloc :
    (os_malloc (initState fun _ => 0) 100).2.last = some 4096 ∧
      (os_malloc (initState fun _ => 0) 100).2.blocks =
        [⟨4096, 136, .alloc⟩, ⟨4232, 130936, .free⟩] ∧
      (os_malloc (initState fun _ => 0) 100).1 = 4128 := by decide

/-- C7 (code bug): in the in-place tail extension of `os_realloc`
(src lines 298–308) a failed `sbrk` — which returns the `(void *)-1`
sentinel, a non-null value — does not trigger `DIE(!new_ptr, ...)`: the
process does not terminate, the block size is silently set to the new size
and the old pointer is returned. -/
theorem C7_tail_extend_silent_on_sbrk_fail :
    realloc_extend_last 4128 200 SBRK_FAIL = .ret 4128 200 ∧ SBRK_FAIL ≠ 0 := by decide

/-- C8 (counterexample): `os_calloc (2 ^ 32) (2 ^ 32)` overflows the
`size_t` product `size * nmemb`, computes an aligned block size of only 32
bytes, passes `0` usable bytes to `os_malloc`, receives null, and falls
through to `return (void *)(block + 1)`: it hands back the non-null garbage
pointer 32 without zeroing anything — the first of the (positive) `n * k`
bytes of the returned region still holds its previous value 7. -/
theorem C8_calloc_overflow_cex :
    0 < 2 ^ 32 * 2 ^ 32 ∧
      (os_calloc (initState fun _ => 7) (2 ^ 32) (2 ^ 32)).1 = 32 ∧
      (os_calloc (initState fun _ => 7) (2 ^ 32) (2 ^ 32)).2.mem
          ((os_calloc (initState fun _ => 7) (2 ^ 32) (2 ^ 32)).1 + 0) = 7 := by decide

end OSMem

namespace OSMem

/-! ## Properties of the absorb loop and of the full coalescing pass -/

theorem absorbRun_cons_free {c : Block} (b : Block) (r : List Block)
    (h : c.status = .free) :
    absorbRun b (c :: r) = absorbRun { b with size := b.size + c.size } r := by
  simp [absorbRun, h]

theorem absorbRun_cons_stay {c : Block} (b : Block) (r : List Block)
    (h : ¬ c.status = .free) : absorbRun b (c :: r) = (b, c :: r) := by
  simp [absorbRun, h]

theorem coalesceFuel_zero (la : Option Nat) (l : List Block) :
    coalesceFuel 0 la l = (l, la) := rfl

theorem coalesceFuel_nil (f : Nat) (la : Option Nat) :
    coalesceFuel (f + 1) la [] = ([], la) := rfl

theorem coalesceFuel_cons_free {b : Block} (f : Nat) (la : Option Nat) (r : List Block)
    (h : b.status = .free) :
    coalesceFuel (f + 1) la (b :: r) =
      ((absorbRun b r).1 ::
          (coalesceFuel f (if r ≠ [] ∧ (absorbRun b r).2 = [] then some b.addr else la)
            (absorbRun b r).2).1,
        (coalesceFuel f (if r ≠ [] ∧ (absorbRun b r).2 = [] then some b.addr else la)
          (absorbRun b r).2).2) := by
  simp [coalesceFuel, h]

theorem coalesceFuel_cons_stay {b : Block} (f : Nat) (la : Option Nat) (r : List Block)
    (h : ¬ b.status = .free) :
    coalesceFuel (f + 1) la (b :: r) =
      (b :: (coalesceFuel f la r).1, (coalesceFuel f la r).2) := by
  simp [coalesceFuel, h]

theorem absorbRun_fst_status (b : Block) (l : List Block) :
    (absorbRun b l).1.status = b.status := by
  induction l generalizing b with
  | nil => simp [absorbRun]
  | cons c r ih =>
    by_cases h : c.status = .free
    · rw [absorbRun_cons_free b r h]; exact ih _
    · rw [absorbRun_cons_stay b r h]

theorem absorbRun_fst_addr (b : Block) (l : List Block) :
    (absorbRun b l).1.addr = b.addr := by
  induction l generalizing b with
  | nil => simp [absorbRun]
  | cons c r ih =>
    by_cases h : c.status = .free
    · rw [absorbRun_cons_free b r h]; exact ih _
    · rw [absorbRun_cons_stay b r h]

theorem absorbRun_sum (b : Block) (l : List Block) :
    (absorbRun b l).1.size + ((absorbRun b l).2.map Block.size).sum =
      b.size + (l.map Block.size).sum := by
  induction l generalizing b with
  | nil => simp [absorbRun]
  | cons c r ih =>
    by_cases h : c.status = .free
    · rw [absorbRun_cons_free b r h]
      have h2 := ih { b with size := b.size + c.size }
      dsimp only at h2
      simp only [List.map_cons, List.sum_cons]
      omega
    · rw [absorbRun_cons_stay b r h]

theorem absorbRun_head_not_free (b : Block) (l : List Block) (c : Block)
    (h : (absorbRun b l).2.head? = some c) : ¬ c.status = .free := by
  induction l generalizing b with
  | nil => simp [absorbRun] at h
  | cons d r ih =>
    by_cases hd : d.status = .free
    · rw [absorbRun_cons_free b r hd] at h
      exact ih _ h
    · rw [absorbRun_cons_stay b r hd] at h
      simp at h
      simpa [← h] using hd

theorem coalesceFuel_sum (fuel : Nat) (la : Option Nat) (l : List Block)
    (hf : l.length ≤ fuel) :
    ((coalesceFuel fuel la l).1.map Block.size).sum = (l.map Block.size).sum := by
  induction fuel generalizing la l with
  | zero => rw [coalesceFuel_zero]
  | succ f ih =>
    match l with
    | [] => rw [coalesceFuel_nil]
    | b :: r =>
      by_cases hb : b.status = .free
      · have hlen : (absorbRun b r).2.length ≤ f := by
          have := absorbRun_len b r
          simp only [List.length_cons] at hf
          omega
        have hsum := absorbRun_sum b r
        rw [coalesceFuel_cons_free f la r hb]
        simp only [List.map_cons, List.sum_cons]
        rw [ih _ _ hlen]
        omega
      · have hlen : r.length ≤ f := by simp only [List.length_cons] at hf; omega
        rw [coalesceFuel_cons_stay f la r hb]
        simp only [List.map_cons, List.sum_cons]
        rw [ih _ _ hlen]

theorem coalesceFuel_head_status (fuel : Nat) (la : Option Nat) (l : List Block)
    (hf : l.length ≤ fuel) :
    (coalesceFuel fuel la l).1.head?.map Block.status = l.head?.map Block.status := by
  match fuel, l with
  | 0, l => rw [coalesceFuel_zero]
  | f + 1, [] => rw [coalesceFuel_nil]
  | f + 1, b :: r =>
    by_cases hb : b.status = .free
    · rw [coalesceFuel_cons_free f la r hb]
      simp [absorbRun_fst_status]
    · rw [coalesceFuel_cons_stay f la r hb]
      simp

theorem coalesceFuel_chain (fuel : Nat) (la : Option Nat) (l : List Block)
    (hf : l.length ≤ fuel) :
    (coalesceFuel fuel la l).1.Chain'
      (fun x y => ¬(x.status = .free ∧ y.status = .free)) := by
  induction fuel generalizing la l with
  | zero =>
    have : l = [] := by
      cases l with
      | nil => rfl
      | cons b r => simp at hf
    simp [this, coalesceFuel_zero]
  | succ f ih =>
    match l with
    | [] => rw [coalesceFuel_nil]; simp
    | b :: r =>
      by_cases hb : b.status = .free
      · have hlen : (absorbRun b r).2.length ≤ f := by
          have := absorbRun_len b r
          simp only [List.length_cons] at hf
          omega
        rw [coalesceFuel_cons_free f la r hb]
        rw [List.chain'_cons']
        refine ⟨?_, ih _ _ hlen⟩
        intro h hh
        have hs := coalesceFuel_head_status f
          (if r ≠ [] ∧ (absorbRun b r).2 = [] then some b.addr else la)
          (absorbRun b r).2 hlen
        rw [hh] at hs
        match hh2 : (absorbRun b r).2.head? with
        | none => rw [hh2] at hs; simp at hs
        | some c =>
          rw [hh2] at hs
          simp at hs
          have hnc := absorbRun_head_not_free b r c hh2
          intro hcon
          exact hnc (hs ▸ hcon.2)
      · have hlen : r.length ≤ f := by simp only [List.length_cons] at hf; omega
        rw [coalesceFuel_cons_stay f la r hb]
        rw [List.chain'_cons']
        refine ⟨?_, ih _ _ hlen⟩
        intro h _ hcon
        exact hb hcon.1

/-- C5: after one full coalescing pass no two adjacent blocks of the arena
list are both `STATUS_FREE`, and the total byte extent of the list — the
sum of the block sizes — is unchanged. -/
theorem C5_coalesce_everywhere_spec (st : AState) :
    ((coalesce_everywhere st).blocks.Chain'
        fun x y => ¬(x.status = .free ∧ y.status = .free)) ∧
      ((coalesce_everywhere st).blocks.map Block.size).sum =
        (st.blocks.map Block.size).sum := by
  constructor
  · exact coalesceFuel_chain _ _ _ le_rfl
  · exact coalesceFuel_sum _ _ _ le_rfl

end OSMem

namespace OSMem

/-! ## Address arithmetic of contiguous block lists -/

/-- Two headers are contiguous when the second starts exactly where the
first block ends. -/
def contig (x y : Block) : Prop := x.addr + x.size = y.addr

instance (x y : Block) : Decidable (contig x y) :=
  inferInstanceAs (Decidable (x.addr + x.size = y.addr))

/-- A `Decidable` instance for contiguity chains that evaluates by plain
structural recursion. -/
def decChainContig : (l : List Block) → Decidable (l.Chain' contig)
  | [] => isTrue (by simp)
  | [x] => isTrue (by simp)
  | x :: y :: r =>
    match decChainContig (y :: r) with
    | isTrue h =>
      if hxy : contig x y then isTrue (List.chain'_cons.mpr ⟨hxy, h⟩)
      else isFalse fun hc => hxy (List.chain'_cons.mp hc).1
    | isFalse h => isFalse fun hc => h (List.chain'_cons.mp hc).2

instance (l : List Block) : Decidable (l.Chain' contig) := decChainContig l

theorem chain_contig_head_lt (b : Block) (r : List Block)
    (hc : (b :: r).Chain' contig) (hp : ∀ x ∈ b :: r, 0 < x.size) :
    ∀ y ∈ r, b.addr < y.addr := by
  induction r generalizing b with
  | nil => intro y hy; simp at hy
  | cons c r' ih =>
    have hbc : contig b c := (List.chain'_cons.mp hc).1
    have hb : 0 < b.size := hp b (by simp)
    have hlt : b.addr < c.addr := by unfold contig at hbc; omega
    intro y hy
    rcases List.mem_cons.mp hy with h | h
    · exact h ▸ hlt
    · exact hlt.trans (ih c (List.chain'_cons.mp hc).2
        (fun x hx => hp x (by simp at hx ⊢; tauto)) y h)

theorem chain_contig_pairwise (l : List Block)
    (hc : l.Chain' contig) (hp : ∀ x ∈ l, 0 < x.size) :
    l.Pairwise fun x y => x.addr < y.addr := by
  induction l with
  | nil => simp
  | cons b r ih =>
    refine List.Pairwise.cons (chain_contig_head_lt b r hc hp) ?_
    exact ih (List.chain'_cons'.mp hc).2 fun x hx => hp x (by simp [hx])

theorem find?_addr_mem {l : List Block} {a : Nat} {b : Block}
    (h : l.find? (fun c => c.addr == a) = some b) : b.addr = a ∧ b ∈ l := by
  refine ⟨?_, List.mem_of_find?_eq_some h⟩
  have := List.find?_some h
  simpa using this

theorem find?_of_mem_pairwise {l : List Block}
    (hp : l.Pairwise fun x y => x.addr < y.addr) {b : Block} (hb : b ∈ l) :
    l.find? (fun c => c.addr == b.addr) = some b := by
  induction l with
  | nil => simp at hb
  | cons c r ih =>
    rcases List.mem_cons.mp hb with h | h
    · subst h
      simp [List.find?]
    · have hlt : c.addr < b.addr := (List.pairwise_cons.mp hp).1 b h
      have hne : (c.addr == b.addr) = false := by simp; omega
      simp only [List.find?, hne]
      exact ih (List.pairwise_cons.mp hp).2 h

theorem find?_append_left {l1 l2 : List Block} {p : Block → Bool} {b : Block}
    (h : l1.find? p = some b) : (l1 ++ l2).find? p = some b := by
  induction l1 with
  | nil => simp [List.find?] at h
  | cons c r ih =>
    by_cases hc : p c
    · simp only [List.find?, hc] at h ⊢
      exact h
    · simp only [List.find?, Bool.not_eq_true] at hc
      simp only [List.cons_append, List.find?, hc] at h ⊢
      exact ih h

theorem insertAfter_cons (a : Nat) (nb c : Block) (r : List Block) :
    insertAfter a nb (c :: r) =
      if c.addr = a then c :: nb :: r else c :: insertAfter a nb r := rfl

theorem insertAfter_last {l : List Block} {t nb : Block}
    (hl : l.getLast? = some t) (hp : l.Pairwise fun x y => x.addr < y.addr) :
    insertAfter t.addr nb l = l ++ [nb] := by
  induction l with
  | nil => simp at hl
  | cons c r ih =>
    cases r with
    | nil =>
      have : t = c := by simpa using hl.symm
      subst this
      simp [insertAfter_cons]
    | cons d r' =>
      have hl' : (d :: r').getLast? = some t := by
        rw [← hl]
        exact (List.getLast?_cons_cons ..).symm
      have hmem : t ∈ d :: r' := by
        obtain ⟨h9, ht⟩ := List.mem_getLast?_eq_getLast (Option.mem_def.mpr hl')
        rw [ht]
        exact List.getLast_mem _
      have hlt : c.addr < t.addr := (List.pairwise_cons.mp hp).1 t hmem
      have hne : ¬ c.addr = t.addr := by omega
      rw [insertAfter_cons, if_neg hne, ih hl' (List.pairwise_cons.mp hp).2]
      simp

theorem find?_map_addr {l : List Block} {a : Nat} (f : Block → Block)
    (hf : ∀ c, (f c).addr = c.addr) :
    (l.map f).find? (fun c => c.addr == a) = (l.find? (fun c => c.addr == a)).map f := by
  induction l with
  | nil => simp
  | cons c r ih =>
    by_cases hc : c.addr = a
    · simp [List.find?, hf, hc]
    · have h1 : ((f c).addr == a) = false := by simp [hf, hc]
      have h2 : (c.addr == a) = false := by simp [hc]
      simp only [List.map_cons, List.find?, h1, h2]
      exact ih

theorem find?_splitL {l : List Block} {a n : Nat} {b : Block}
    (h : l.find? (fun c => c.addr == a) = some b) :
    (splitL a n l).find? (fun c => c.addr == a) = some { b with size := n } := by
  induction l with
  | nil => simp [List.find?] at h
  | cons c r ih =>
    by_cases hc : c.addr = a
    · have hbc : c = b := by
        have h1 : (c.addr == a) = true := by simp [hc]
        simp only [List.find?, h1] at h
        exact Option.some.inj h
      subst hbc
      have h1 : (c.addr == a) = true := by simp [hc]
      simp only [splitL, hc, if_pos rfl, List.find?]
      simp [hc]
    · have h1 : (c.addr == a) = false := by simp [hc]
      simp only [List.find?, h1] at h
      simp only [splitL, hc, if_false, List.find?, h1]
      exact ih h

/-! ## The well-formedness invariant of the arena -/

instance instDecForallSome (o : Option Block) (P : Block → Prop) [DecidablePred P] :
    Decidable (∀ t, o = some t → P t) :=
  match o with
  | none => isTrue (by intro t ht; cases ht)
  | some t =>
    if h : P t then isTrue (fun t' ht' => Option.some.inj ht' ▸ h)
    else isFalse fun hh => h (hh t rfl)

/-- Well-formedness of the arena part of a state: the list from
`global_base` is contiguous in memory, addresses and sizes are positive,
the break is positive, `last` points at the final list element, and that
element ends exactly at the break.  These are the spec's structural
invariants (spec section 3). -/
def WF (st : AState) : Prop :=
  st.blocks.Chain' contig
  ∧ (∀ b ∈ st.blocks, 0 < b.addr ∧ 0 < b.size)
  ∧ 0 < st.brk
  ∧ st.last = st.blocks.getLast?.map Block.addr
  ∧ ∀ t, st.blocks.getLast? = some t → t.addr + t.size = st.brk

instance (st : AState) : Decidable (WF st) :=
  inferInstanceAs (Decidable (st.blocks.Chain' contig
    ∧ (∀ b ∈ st.blocks, 0 < b.addr ∧ 0 < b.size)
    ∧ 0 < st.brk
    ∧ st.last = st.blocks.getLast?.map Block.addr
    ∧ ∀ t, st.blocks.getLast? = some t → t.addr + t.size = st.brk))

/-! ## The public operations never write through the byte memory except
via `memset`/`memcpy`, and the small path never touches the mapped list -/

theorem brk_block_mem (st : AState) (s : Nat) : (brk_block st s).2.mem = st.mem := by
  unfold brk_block; split <;> rfl

theorem split_block_mem (st : AState) (a n : Nat) : (split_block st a n).mem = st.mem := by
  unfold split_block; split
  · rfl
  · split <;> rfl

theorem coalesce_everywhere_mem (st : AState) : (coalesce_everywhere st).mem = st.mem := rfl

theorem coalesce_blocks_mem (st : AState) (a : Nat) :
    (coalesce_blocks st a).mem = st.mem := rfl

theorem find_best_fit_mem (st : AState) (s : Nat) :
    (find_best_fit st s).2.mem = st.mem := by
  unfold find_best_fit
  dsimp only
  split
  · rfl
  · split
    · rfl
    · split <;> rfl

theorem setStatusA_mem (st : AState) (a : Nat) (s : Status) :
    (setStatusA st a s).mem = st.mem := rfl

theorem os_malloc_mem (st : AState) (s : Nat) : (os_malloc st s).2.mem = st.mem := by
  unfold os_malloc
  dsimp only
  split
  · rfl
  · split
    · rfl
    · split
      · split <;> simp [split_block_mem, brk_block_mem]
      · split
        · split <;>
            simp [setStatusA_mem, split_block_mem, find_best_fit_mem,
              coalesce_everywhere_mem]
        · simp [brk_block_mem, find_best_fit_mem, coalesce_everywhere_mem]

theorem os_free_mem (st : AState) (p : Nat) : (os_free st p).mem = st.mem := by
  unfold os_free
  dsimp only
  split
  · rfl
  · split
    · rfl
    · split
      · rfl
      · split <;> rfl

end OSMem

namespace OSMem

/-! ## Specification of the best-fit scan -/

/-- A block satisfies a request when it is free and large enough. -/
def qualifies (req : Nat) (c : Block) : Prop := c.status = .free ∧ req ≤ c.size

instance (req : Nat) (c : Block) : Decidable (qualifies req c) :=
  inferInstanceAs (Decidable (c.status = .free ∧ req ≤ c.size))

theorem scanGo_nil (req : Nat) (best : Option Block) (bsz : Nat) :
    scanGo req [] best bsz = (best, bsz) := rfl

theorem scanGo_cons (req : Nat) (c : Block) (r : List Block) (best : Option Block)
    (bsz : Nat) :
    scanGo req (c :: r) best bsz =
      if c.status = .free ∧ req ≤ c.size ∧ c.size < bsz then scanGo req r (some c) c.size
      else scanGo req r best bsz := rfl

/-- Invariant of the scan loop: either nothing in `l` beats the incoming
bound and the accumulator passes through, or the result is the earliest
block of minimal qualifying size beating the bound. -/
theorem scanGo_spec (req : Nat) (l : List Block) :
    ∀ (best : Option Block) (bsz : Nat),
      (scanGo req l best bsz = (best, bsz) ∧
        ∀ c ∈ l, ¬(qualifies req c ∧ c.size < bsz)) ∨
      (∃ l1 b l2, l = l1 ++ b :: l2 ∧ scanGo req l best bsz = (some b, b.size) ∧
        qualifies req b ∧ b.size < bsz ∧
        (∀ c ∈ l1, qualifies req c → b.size < c.size) ∧
        (∀ c ∈ l2, qualifies req c → b.size ≤ c.size)) := by
  induction l with
  | nil => intro best bsz; left; exact ⟨scanGo_nil .., by simp⟩
  | cons c r ih =>
    intro best bsz
    by_cases hc : c.status = .free ∧ req ≤ c.size ∧ c.size < bsz
    · rcases ih (some c) c.size with ⟨heq, hall⟩ | ⟨l1, b, l2, hsplit, heq, hqb, hlt, h1, h2⟩
      · right
        refine ⟨[], c, r, rfl, ?_, ⟨hc.1, hc.2.1⟩, hc.2.2, by simp, ?_⟩
        · rw [scanGo_cons, if_pos hc, heq]
        · intro e he hqe
          have := hall e he
          by_contra hcon
          exact this ⟨hqe, by omega⟩
      · right
        refine ⟨c :: l1, b, l2, by rw [hsplit]; rfl, ?_, hqb, ?_, ?_, h2⟩
        · rw [scanGo_cons, if_pos hc, heq]
        · omega
        · intro e he hqe
          rcases List.mem_cons.mp he with h | h
          · subst h; omega
          · exact h1 e h hqe
    · rcases ih best bsz with ⟨heq, hall⟩ | ⟨l1, b, l2, hsplit, heq, hqb, hlt, h1, h2⟩
      · left
        refine ⟨by rw [scanGo_cons, if_neg hc, heq], ?_⟩
        intro e he
        rcases List.mem_cons.mp he with h | h
        · subst h
          intro hcon
          exact hc ⟨hcon.1.1, hcon.1.2, hcon.2⟩
        · exact hall e h
      · right
        refine ⟨c :: l1, b, l2, by rw [hsplit]; rfl, ?_, hqb, hlt, ?_, h2⟩
        · rw [scanGo_cons, if_neg hc, heq]
        · intro e he hqe
          rcases List.mem_cons.mp he with h | h
          · subst h
            have : ¬ e.size < bsz := fun hcon => hc ⟨hqe.1, hqe.2, hcon⟩
            omega
          · exact h1 e h hqe

/-! ## The absorb loop on contiguous lists -/

theorem absorbRun_size_ge (b : Block) (l : List Block) :
    b.size ≤ (absorbRun b l).1.size := by
  induction l generalizing b with
  | nil => simp [absorbRun]
  | cons c r ih =>
    by_cases h : c.status = .free
    · rw [absorbRun_cons_free b r h]
      have := ih { b with size := b.size + c.size }
      dsimp only at this
      omega
    · rw [absorbRun_cons_stay b r h]

theorem absorbRun_suffix (b : Block) (l : List Block) :
    ∃ pre, l = pre ++ (absorbRun b l).2 := by
  induction l generalizing b with
  | nil => exact ⟨[], by simp [absorbRun]⟩
  | cons c r ih =>
    by_cases h : c.status = .free
    · rw [absorbRun_cons_free b r h]
      obtain ⟨pre, hpre⟩ := ih { b with size := b.size + c.size }
      exact ⟨c :: pre, by rw [List.cons_append, ← hpre]⟩
    · exact ⟨[], by rw [absorbRun_cons_stay b r h]; rfl⟩

theorem absorbRun_chain_ext (b : Block) (r : List Block)
    (hc : (b :: r).Chain' contig) :
    ((absorbRun b r).1 :: (absorbRun b r).2).Chain' contig ∧
      ∀ t, (b :: r).getLast? = some t → (absorbRun b r).2 = [] →
        (absorbRun b r).1.addr + (absorbRun b r).1.size = t.addr + t.size := by
  induction r generalizing b with
  | nil =>
    refine ⟨by simp [absorbRun], ?_⟩
    intro t ht _
    have : t = b := by simpa using ht.symm
    rw [this]
    simp [absorbRun]
  | cons c r' ih =>
    have hbc : contig b c := (List.chain'_cons.mp hc).1
    have hcr : (c :: r').Chain' contig := (List.chain'_cons.mp hc).2
    by_cases h : c.status = .free
    · rw [absorbRun_cons_free b r' h]
      have hchain : ({ b with size := b.size + c.size } :: r').Chain' contig := by
        rw [List.chain'_cons']
        refine ⟨?_, (List.chain'_cons'.mp hcr).2⟩
        intro y hy
        have := (List.chain'_cons'.mp hcr).1 y hy
        unfold contig at hbc this ⊢
        dsimp only
        omega
      obtain ⟨ha, hext⟩ := ih { b with size := b.size + c.size } hchain
      refine ⟨ha, ?_⟩
      intro t ht hnil
      cases r' with
      | nil =>
        have htc : t = c := by
          rw [List.getLast?_cons_cons] at ht
          simpa using ht.symm
        have := hext { b with size := b.size + c.size } rfl hnil
        dsimp only at this
        unfold contig at hbc
        subst htc
        omega
      | cons d r'' =>
        refine hext t ?_ hnil
        rw [List.getLast?_cons_cons] at ht ⊢
        exact ht
    · rw [absorbRun_cons_stay b r' h]
      exact ⟨hc, by intro t _ hnil; simp at hnil⟩

theorem coalesceFuel_head_addr (fuel : Nat) (la : Option Nat) (l : List Block)
    (hf : l.length ≤ fuel) :
    (coalesceFuel fuel la l).1.head?.map Block.addr = l.head?.map Block.addr := by
  match fuel, l with
  | 0, l => rw [coalesceFuel_zero]
  | f + 1, [] => rw [coalesceFuel_nil]
  | f + 1, b :: r =>
    by_cases hb : b.status = .free
    · rw [coalesceFuel_cons_free f la r hb]
      simp [absorbRun_fst_addr]
    · rw [coalesceFuel_cons_stay f la r hb]
      simp

end OSMem

namespace OSMem

/-! ## The coalescing pass preserves the arena invariants -/

theorem coalesceFuel_nil_any (f : Nat) (la : Option Nat) :
    coalesceFuel f la [] = ([], la) := by
  cases f with
  | zero => rw [coalesceFuel_zero]
  | succ f => rw [coalesceFuel_nil]

theorem getLast?_cons_of_ne_nil {x : Block} {l : List Block} (h : l ≠ []) :
    (x :: l).getLast? = l.getLast? := by
  cases l with
  | nil => exact absurd rfl h
  | cons d r => rw [List.getLast?_cons_cons]

theorem head_contig_transfer (f : Nat) (la : Option Nat) (l2 : List Block)
    (hlen : l2.length ≤ f) (x : Block)
    (hx : ∀ y ∈ l2.head?, contig x y) :
    ∀ y ∈ (coalesceFuel f la l2).1.head?, contig x y := by
  intro y hy
  have hm := coalesceFuel_head_addr f la l2 hlen
  rw [Option.mem_def] at hy
  rw [hy] at hm
  match hh : l2.head? with
  | none => rw [hh] at hm; simp at hm
  | some z =>
    rw [hh] at hm
    simp at hm
    have hxz := hx z (Option.mem_def.mpr hh)
    unfold contig at hxz ⊢
    omega

theorem coalesceFuel_wf (fuel : Nat) :
    ∀ (la : Option Nat) (l : List Block), l.length ≤ fuel →
      l.Chain' contig → (∀ x ∈ l, 0 < x.addr ∧ 0 < x.size) →
      (coalesceFuel fuel la l).1.Chain' contig ∧
        (∀ x ∈ (coalesceFuel fuel la l).1, 0 < x.addr ∧ 0 < x.size) ∧
        ∀ t, l.getLast? = some t → la = some t.addr →
          ∃ t', (coalesceFuel fuel la l).1.getLast? = some t' ∧
            (coalesceFuel fuel la l).2 = some t'.addr ∧
            t'.addr + t'.size = t.addr + t.size := by
  induction fuel with
  | zero =>
    intro la l hf hc hp
    have : l = [] := by cases l with | nil => rfl | cons b r => simp at hf
    subst this
    rw [coalesceFuel_zero]
    exact ⟨by simp, by simp, by intro t ht _; simp at ht⟩
  | succ f ih =>
    intro la l hf hc hp
    match l with
    | [] =>
      rw [coalesceFuel_nil]
      exact ⟨by simp, by simp, by intro t ht _; simp at ht⟩
    | b :: r =>
      by_cases hb : b.status = .free
      · rw [coalesceFuel_cons_free f la r hb]
        have hchain : ((absorbRun b r).1 :: (absorbRun b r).2).Chain' contig :=
          (absorbRun_chain_ext b r hc).1
        have hext := (absorbRun_chain_ext b r hc).2
        obtain ⟨pre, hpre⟩ := absorbRun_suffix b r
        have hlen : (absorbRun b r).2.length ≤ f := by
          have := absorbRun_len b r
          simp only [List.length_cons] at hf
          omega
        have hpos2 : ∀ x ∈ (absorbRun b r).2, 0 < x.addr ∧ 0 < x.size := by
          intro x hx
          apply hp
          rw [hpre]
          exact List.mem_cons_of_mem b (List.mem_append_right pre hx)
        have hpos1 : 0 < (absorbRun b r).1.addr ∧ 0 < (absorbRun b r).1.size := by
          have h1 := absorbRun_fst_addr b r
          have h2 := absorbRun_size_ge b r
          have h3 := hp b (by simp)
          omega
        have hchain2 : (absorbRun b r).2.Chain' contig :=
          (List.chain'_cons'.mp hchain).2
        set la' := if r ≠ [] ∧ (absorbRun b r).2 = [] then some b.addr else la with hla'
        obtain ⟨ihc, ihp, iht⟩ := ih la' (absorbRun b r).2 hlen hchain2 hpos2
        refine ⟨?_, ?_, ?_⟩
        · rw [List.chain'_cons']
          exact ⟨head_contig_transfer f la' (absorbRun b r).2 hlen _
            (List.chain'_cons'.mp hchain).1, ihc⟩
        · intro x hx
          rcases List.mem_cons.mp hx with h | h
          · exact h ▸ hpos1
          · exact ihp x h
        · intro t ht hla
          by_cases hr : r = []
          · subst hr
            have htb : t = b := by simpa using ht.symm
            have hp2 : absorbRun b ([] : List Block) = (b, []) := rfl
            have hla'v : la' = la := by
              rw [hla']
              simp
            rw [hp2] at *
            rw [hla'v, coalesceFuel_nil_any]
            exact ⟨b, by simp, by rw [hla, htb], by rw [htb]⟩
          · by_cases h2 : (absorbRun b r).2 = []
            · have hla'v : la' = some b.addr := by rw [hla']; simp [hr, h2]
              rw [hla'v, h2, coalesceFuel_nil_any]
              refine ⟨(absorbRun b r).1, by simp, ?_, hext t ht h2⟩
              simp [absorbRun_fst_addr]
            · have hla'v : la' = la := by
                rw [hla']
                have : ¬(r ≠ [] ∧ (absorbRun b r).2 = []) := fun hcon => h2 hcon.2
                simp [this]
              have htr : r.getLast? = some t := by
                rw [← ht, getLast?_cons_of_ne_nil hr]
              have ht2 : (absorbRun b r).2.getLast? = some t := by
                have h5 : r.getLast? = (absorbRun b r).2.getLast? := by
                  conv_lhs => rw [hpre]
                  exact List.getLast?_append_of_ne_nil pre h2
                rw [← h5, htr]
              obtain ⟨t', h1', h2', h3'⟩ := iht t ht2 (hla'v ▸ hla)
              refine ⟨t', ?_, h2', h3'⟩
              rw [getLast?_cons_of_ne_nil, h1']
              intro hcon
              rw [hcon] at h1'
              simp at h1'
      · rw [coalesceFuel_cons_stay f la r hb]
        have hlen : r.length ≤ f := by simp only [List.length_cons] at hf; omega
        have hchain2 : r.Chain' contig := (List.chain'_cons'.mp hc).2
        have hpos2 : ∀ x ∈ r, 0 < x.addr ∧ 0 < x.size :=
          fun x hx => hp x (List.mem_cons_of_mem b hx)
        obtain ⟨ihc, ihp, iht⟩ := ih la r hlen hchain2 hpos2
        refine ⟨?_, ?_, ?_⟩
        · rw [List.chain'_cons']
          exact ⟨head_contig_transfer f la r hlen _ (List.chain'_cons'.mp hc).1, ihc⟩
        · intro x hx
          rcases List.mem_cons.mp hx with h | h
          · exact h ▸ hp b (by simp)
          · exact ihp x h
        · intro t ht hla
          by_cases hr : r = []
          · subst hr
            have htb : t = b := by simpa using ht.symm
            rw [coalesceFuel_nil_any]
            exact ⟨b, by simp, by rw [hla, htb], by rw [htb]⟩
          · have htr : r.getLast? = some t := by
              rw [← ht, getLast?_cons_of_ne_nil hr]
            obtain ⟨t', h1', h2', h3'⟩ := iht t htr hla
            refine ⟨t', ?_, h2', h3'⟩
            rw [getLast?_cons_of_ne_nil, h1']
            intro hcon
            rw [hcon] at h1'
            simp at h1'

end OSMem

namespace OSMem

/-! ## Support lemmas for the `os_malloc` postcondition -/

theorem ALIGN_ge {x : Nat} (h : x + 7 < 2 ^ 64) : x ≤ ALIGN x := by
  unfold ALIGN
  omega

theorem ALIGN_lt {x : Nat} (h : x + 7 < 2 ^ 64) : ALIGN x < x + 8 := by
  unfold ALIGN
  omega

theorem mem_of_getLast?_eq {l : List Block} {t : Block} (h : l.getLast? = some t) :
    t ∈ l := by
  obtain ⟨h9, ht⟩ := List.mem_getLast?_eq_getLast (Option.mem_def.mpr h)
  rw [ht]
  exact List.getLast_mem _

theorem cons_getLast?_ne_none (c : Block) (r : List Block) :
    (c :: r).getLast? ≠ none := by
  induction r generalizing c with
  | nil => simp
  | cons d r' ih =>
    rw [List.getLast?_cons_cons]
    exact ih d

theorem getLast?_none_nil {l : List Block} (h : l.getLast? = none) : l = [] := by
  cases l with
  | nil => rfl
  | cons c r => exact absurd h (cons_getLast?_ne_none c r)

theorem mem_addr_le_getLast {l : List Block}
    (hp : l.Pairwise fun x y => x.addr < y.addr) {t : Block}
    (hgl : l.getLast? = some t) : ∀ c ∈ l, c.addr ≤ t.addr := by
  induction l with
  | nil => simp
  | cons d r ih =>
    intro c hc
    cases r with
    | nil =>
      have : t = d := by simpa using hgl.symm
      subst this
      have : c = t := by simpa using hc
      simp [this]
    | cons e r' =>
      have hgl' : (e :: r').getLast? = some t := by
        rw [← hgl, List.getLast?_cons_cons]
      rcases List.mem_cons.mp hc with h | h
      · subst h
        have := (List.pairwise_cons.mp hp).1 t (mem_of_getLast?_eq hgl')
        omega
      · exact ih (List.pairwise_cons.mp hp).2 hgl' c h

theorem addr_lt_of_tail_ext {l : List Block}
    (hc : l.Chain' contig) (hp : ∀ x ∈ l, 0 < x.addr ∧ 0 < x.size)
    {t : Block} (hgl : l.getLast? = some t) {B : Nat}
    (hext : t.addr + t.size = B) : ∀ c ∈ l, c.addr < B := by
  intro c hcm
  have hpw := chain_contig_pairwise l hc fun x hx => (hp x hx).2
  have h1 := mem_addr_le_getLast hpw hgl c hcm
  have h2 := (hp t (mem_of_getLast?_eq hgl)).2
  omega

theorem find?_append_fresh {l : List Block} {A : Nat}
    (h : ∀ c ∈ l, c.addr < A) (nb : Block) (hnb : nb.addr = A) :
    (l ++ [nb]).find? (fun c => c.addr == A) = some nb := by
  induction l with
  | nil => simp [List.find?, hnb]
  | cons c r ih =>
    have hc : (c.addr == A) = false := by
      have := h c (by simp)
      simp
      omega
    simp only [List.cons_append, List.find?, hc]
    exact ih fun x hx => h x (List.mem_cons_of_mem c hx)

/-- What `brk_block` does to a well-formed arena: the new block is appended
at the end of the list (because `last` is the address-highest block and the
new block is carved at the break, above everything). -/
theorem brk_block_spec (st : AState) (s : Nat) (hs : s ≠ 0)
    (hc : st.blocks.Chain' contig)
    (hp : ∀ x ∈ st.blocks, 0 < x.addr ∧ 0 < x.size)
    (hlast : st.last = st.blocks.getLast?.map Block.addr)
    (hext : ∀ t, st.blocks.getLast? = some t → t.addr + t.size = st.brk) :
    (brk_block st s).1 = st.brk ∧
      (brk_block st s).2.blocks = st.blocks ++ [⟨st.brk, s, .alloc⟩] ∧
      (brk_block st s).2.blocks.find? (fun c => c.addr == st.brk) =
        some ⟨st.brk, s, .alloc⟩ := by
  have hfind : ∀ bl : List Block, bl = st.blocks ++ [⟨st.brk, s, .alloc⟩] →
      bl.find? (fun c => c.addr == st.brk) = some ⟨st.brk, s, .alloc⟩ := by
    intro bl hbl
    subst hbl
    cases hgl : st.blocks.getLast? with
    | none =>
      rw [getLast?_none_nil hgl]
      simp [List.find?]
    | some t =>
      exact find?_append_fresh
        (addr_lt_of_tail_ext hc hp hgl (hext t hgl)) _ rfl
  unfold brk_block
  rw [if_neg hs]
  cases hgl : st.blocks.getLast? with
  | none =>
    have hbl : st.blocks = [] := getLast?_none_nil hgl
    have hl : st.last = none := by rw [hlast, hgl]; rfl
    rw [hl]
    refine ⟨rfl, by simp [hbl], ?_⟩
    exact hfind _ (by simp [hbl])
  | some t =>
    have hl : st.last = some t.addr := by rw [hlast, hgl]; rfl
    rw [hl]
    have hpw := chain_contig_pairwise st.blocks hc fun x hx => (hp x hx).2
    have happ := @insertAfter_last st.blocks t ⟨st.brk, s, .alloc⟩ hgl hpw
    refine ⟨rfl, happ, hfind _ happ⟩

/-- Coalescing the whole arena preserves well-formedness and does not move
the break or the flag. -/
theorem coalesce_everywhere_WF (st : AState) (hwf : WF st) :
    WF (coalesce_everywhere st) ∧ (coalesce_everywhere st).brk = st.brk ∧
      (coalesce_everywhere st).prealloc = st.prealloc := by
  obtain ⟨hc, hp, hbrk, hlast, hext⟩ := hwf
  have hW := coalesceFuel_wf st.blocks.length st.last st.blocks le_rfl hc hp
  refine ⟨⟨hW.1, hW.2.1, hbrk, ?_, ?_⟩, rfl, rfl⟩
  · cases hgl : st.blocks.getLast? with
    | none =>
      have hbl : st.blocks = [] := getLast?_none_nil hgl
      have : st.last = none := by rw [hlast, hgl]; rfl
      show (coalesceGo st.last st.blocks).2 =
        ((coalesceGo st.last st.blocks).1.getLast?).map Block.addr
      rw [hbl, this]
      unfold coalesceGo
      rw [coalesceFuel_nil_any]
      rfl
    | some t =>
      have hl : st.last = some t.addr := by rw [hlast, hgl]; rfl
      obtain ⟨t', h1, h2, h3⟩ := hW.2.2 t hgl hl
      show (coalesceGo st.last st.blocks).2 =
        ((coalesceGo st.last st.blocks).1.getLast?).map Block.addr
      unfold coalesceGo
      rw [h1, h2]
      rfl
  · intro t2 ht2
    cases hgl : st.blocks.getLast? with
    | none =>
      have hbl : st.blocks = [] := getLast?_none_nil hgl
      revert ht2
      show (coalesceGo st.last st.blocks).1.getLast? = some t2 → _
      unfold coalesceGo
      rw [hbl, coalesceFuel_nil_any]
      intro h
      simp at h
    | some t =>
      have hl : st.last = some t.addr := by rw [hlast, hgl]; rfl
      obtain ⟨t', h1, h2, h3⟩ := hW.2.2 t hgl hl
      revert ht2
      show (coalesceGo st.last st.blocks).1.getLast? = some t2 → _
      unfold coalesceGo
      rw [h1]
      intro h
      have : t' = t2 := by simpa using h
      subst this
      show t'.addr + t'.size = (coalesce_everywhere st).brk
      rw [h3]
      exact hext t hgl

theorem scan_found {req : Nat} {l : List Block} {b : Block} {s2 : Nat}
    (h : scanGo req l none SIZE_MAX = (some b, s2)) :
    b ∈ l ∧ b.status = .free ∧ req ≤ b.size := by
  rcases scanGo_spec req l none SIZE_MAX with ⟨heq, _⟩ |
    ⟨l1, b0, l2, hsplit, heq, hq, _, _, _⟩
  · rw [heq] at h
    simp at h
  · rw [heq] at h
    have hb : b0 = b := by simpa using congrArg Prod.fst h
    subst hb
    exact ⟨by rw [hsplit]; exact List.mem_append_right l1 (by simp), hq.1, hq.2⟩

end OSMem

namespace OSMem

theorem find?_setStatusL {l : List Block} {a : Nat} {b : Block} {s : Status}
    (h : l.find? (fun c => c.addr == a) = some b) :
    (setStatusL a s l).find? (fun c => c.addr == a) = some { b with status := s } := by
  unfold setStatusL
  rw [find?_map_addr _ (fun c => by split <;> rfl), h]
  have hba : b.addr = a := (find?_addr_mem h).1
  simp [hba]

theorem find?_setSizeL {l : List Block} {a n : Nat} {b : Block}
    (h : l.find? (fun c => c.addr == a) = some b) :
    (setSizeL a n l).find? (fun c => c.addr == a) = some { b with size := n } := by
  unfold setSizeL
  rw [find?_map_addr _ (fun c => by split <;> rfl), h]
  have hba : b.addr = a := (find?_addr_mem h).1
  simp [hba]

/-- Postcondition of `os_malloc` on the small-object path: the returned
pointer sits `META_SIZE` past the header of an `ALLOC` block that is
present in the arena list and whose size covers the aligned request. -/
theorem os_malloc_spec (st : AState) (s : Nat) (hwf : WF st) (hs : s ≠ 0)
    (hsmall : ALIGN (s + META_SIZE) < MMAP_THRESHOLD)
    (hpos0 : 0 < ALIGN (s + META_SIZE)) :
    ∃ nb : Block,
      (os_malloc st s).2.blocks.find? (fun c => c.addr == nb.addr) = some nb ∧
        (os_malloc st s).1 = nb.addr + META_SIZE ∧
        nb.status = .alloc ∧
        ALIGN (s + META_SIZE) ≤ nb.size ∧
        0 < nb.addr := by
  obtain ⟨hc, hp, hbrk, hlast, hext⟩ := hwf
  unfold os_malloc
  dsimp only
  rw [if_neg hs, if_neg (Nat.not_le.mpr hsmall)]
  by_cases hpre : st.prealloc = false
  · rw [if_pos hpre]
    obtain ⟨e1, e2, e3⟩ := brk_block_spec st MMAP_THRESHOLD (by decide) hc hp hlast hext
    rw [if_pos hsmall, e1]
    unfold split_block
    rw [e3]
    dsimp only
    by_cases hrem : MMAP_THRESHOLD - ALIGN (s + META_SIZE) < META_SIZE + ALIGNMENT
    · rw [if_pos hrem]
      refine ⟨⟨st.brk, MMAP_THRESHOLD, .alloc⟩, e3, rfl, rfl, le_of_lt hsmall, hbrk⟩
    · rw [if_neg hrem]
      refine ⟨⟨st.brk, ALIGN (s + META_SIZE), .alloc⟩, ?_, rfl, rfl, le_rfl, hbrk⟩
      dsimp only
      exact find?_splitL e3
  · rw [if_neg hpre]
    have hwf1 : WF (coalesce_everywhere st) :=
      (coalesce_everywhere_WF st ⟨hc, hp, hbrk, hlast, hext⟩).1
    obtain ⟨hc1, hp1, hbrk1, hlast1, hext1⟩ := hwf1
    have hpw1 := chain_contig_pairwise (coalesce_everywhere st).blocks hc1
      fun x hx => (hp1 x hx).2
    cases hgl1 : (coalesce_everywhere st).blocks.getLast? with
    | none =>
      have hbl1 : (coalesce_everywhere st).blocks = [] := getLast?_none_nil hgl1
      have hl1 : (coalesce_everywhere st).last = none := by rw [hlast1, hgl1]; rfl
      have hq : find_best_fit (coalesce_everywhere st) (ALIGN (s + META_SIZE)) =
          (none, coalesce_everywhere st) := by
        unfold find_best_fit
        rw [hl1, hbl1]
        rfl
      rw [hq]
      dsimp only
      obtain ⟨e1, e2, e3⟩ := brk_block_spec (coalesce_everywhere st)
        (ALIGN (s + META_SIZE)) (by omega) hc1 hp1 hlast1 hext1
      rw [e1]
      exact ⟨⟨(coalesce_everywhere st).brk, ALIGN (s + META_SIZE), .alloc⟩,
        e3, rfl, rfl, le_rfl, hbrk1⟩
    | some t1 =>
      have hl1 : (coalesce_everywhere st).last = some t1.addr := by
        rw [hlast1, hgl1]; rfl
      have hfind1 : (coalesce_everywhere st).blocks.find?
          (fun c => c.addr == t1.addr) = some t1 :=
        find?_of_mem_pairwise hpw1 (mem_of_getLast?_eq hgl1)
      have hpt1 := hp1 t1 (mem_of_getLast?_eq hgl1)
      by_cases hg : t1.status = .free ∧ t1.size < ALIGN (s + META_SIZE) ∧
          ALIGN (s + META_SIZE) <
            (scanGo (ALIGN (s + META_SIZE)) (coalesce_everywhere st).blocks none SIZE_MAX).2
      · have hq : find_best_fit (coalesce_everywhere st) (ALIGN (s + META_SIZE)) =
            (some { t1 with size := ALIGN (s + META_SIZE) },
              { coalesce_everywhere st with
                blocks := setSizeL t1.addr (ALIGN (s + META_SIZE))
                  (coalesce_everywhere st).blocks
                brk := (coalesce_everywhere st).brk +
                  (ALIGN (s + META_SIZE) - t1.size) }) := by
          unfold find_best_fit
          rw [hl1]
          dsimp only
          rw [hfind1]
          dsimp only
          rw [if_pos hg, hl1]
        rw [hq]
        dsimp only
        rw [if_neg (lt_irrefl (ALIGN (s + META_SIZE)))]
        refine ⟨⟨t1.addr, ALIGN (s + META_SIZE), .alloc⟩, ?_, rfl, rfl, le_rfl, hpt1.1⟩
        dsimp only
        show (setStatusL t1.addr .alloc (setSizeL t1.addr (ALIGN (s + META_SIZE))
          (coalesce_everywhere st).blocks)).find? (fun c => c.addr == t1.addr) = _
        rw [find?_setStatusL (find?_setSizeL hfind1)]
      · have hq0 : find_best_fit (coalesce_everywhere st) (ALIGN (s + META_SIZE)) =
            ((scanGo (ALIGN (s + META_SIZE)) (coalesce_everywhere st).blocks none
              SIZE_MAX).1, coalesce_everywhere st) := by
          unfold find_best_fit
          rw [hl1]
          dsimp only
          rw [hfind1]
          dsimp only
          rw [if_neg hg]
        cases hsc : (scanGo (ALIGN (s + META_SIZE)) (coalesce_everywhere st).blocks
            none SIZE_MAX) with
        | mk o s2 =>
          cases o with
          | none =>
            rw [hq0, hsc]
            dsimp only
            obtain ⟨e1, e2, e3⟩ := brk_block_spec (coalesce_everywhere st)
              (ALIGN (s + META_SIZE)) (by omega) hc1 hp1 hlast1 hext1
            rw [e1]
            exact ⟨⟨(coalesce_everywhere st).brk, ALIGN (s + META_SIZE), .alloc⟩,
              e3, rfl, rfl, le_rfl, hbrk1⟩
          | some sb =>
            obtain ⟨hsbm, hsbf, hsbs⟩ := scan_found hsc
            have hfindsb : (coalesce_everywhere st).blocks.find?
                (fun c => c.addr == sb.addr) = some sb :=
              find?_of_mem_pairwise hpw1 hsbm
            have hpsb := hp1 sb hsbm
            rw [hq0, hsc]
            dsimp only
            by_cases hsp : ALIGN (s + META_SIZE) < sb.size
            · rw [if_pos hsp]
              unfold split_block
              rw [hfindsb]
              dsimp only
              by_cases hrem : sb.size - ALIGN (s + META_SIZE) < META_SIZE + ALIGNMENT
              · rw [if_pos hrem]
                refine ⟨⟨sb.addr, sb.size, .alloc⟩, ?_, rfl, rfl, hsbs, hpsb.1⟩
                show (setStatusL sb.addr .alloc
                  (coalesce_everywhere st).blocks).find?
                    (fun c => c.addr == sb.addr) = _
                rw [find?_setStatusL hfindsb]
              · rw [if_neg hrem]
                refine ⟨⟨sb.addr, ALIGN (s + META_SIZE), .alloc⟩, ?_, rfl, rfl,
                  le_rfl, hpsb.1⟩
                dsimp only
                show (setStatusL sb.addr .alloc (splitL sb.addr (ALIGN (s + META_SIZE))
                  (coalesce_everywhere st).blocks)).find?
                    (fun c => c.addr == sb.addr) = _
                rw [find?_setStatusL (find?_splitL hfindsb)]
            · rw [if_neg hsp]
              refine ⟨⟨sb.addr, sb.size, .alloc⟩, ?_, rfl, rfl, hsbs, hpsb.1⟩
              show (setStatusL sb.addr .alloc
                (coalesce_everywhere st).blocks).find?
                  (fun c => c.addr == sb.addr) = _
              rw [find?_setStatusL hfindsb]

end OSMem

namespace OSMem

/-- C9: on the small-object path, resizing a freshly allocated block to the
very size it was allocated with returns the same address: the existing
block's size already covers the new aligned size, so `os_realloc` takes the
split-and-return-same-pointer branch (src lines 293–296). -/
theorem C9_realloc_after_malloc_same_ptr (st : AState) (n : Nat) (hwf : WF st)
    (hn : 0 < n) (hsmall : ALIGN (n + META_SIZE) < MMAP_THRESHOLD)
    (h64 : n + 39 < 2 ^ 64) :
    (os_realloc (os_malloc st n).2 (os_malloc st n).1 n).outPtr =
      some (os_malloc st n).1 := by
  have hpos0 : 0 < ALIGN (n + META_SIZE) := by
    have : n + META_SIZE ≤ ALIGN (n + META_SIZE) :=
      ALIGN_ge (by unfold META_SIZE; omega)
    unfold META_SIZE at *
    omega
  obtain ⟨nb, hfind, hptr, hstat, hsize, haddr⟩ :=
    os_malloc_spec st n hwf (by omega) hsmall hpos0
  have hp0 : ¬ (os_malloc st n).1 = 0 := by
    rw [hptr]
    unfold META_SIZE
    omega
  have ha : (os_malloc st n).1 - META_SIZE = nb.addr := by
    rw [hptr]
    omega
  have ha0 : ¬ (os_malloc st n).1 - META_SIZE = 0 := by
    rw [ha]
    omega
  have hlook : lookupBlock (os_malloc st n).2 ((os_malloc st n).1 - META_SIZE) =
      some nb := by
    unfold lookupBlock
    rw [ha]
    exact find?_append_left hfind
  unfold os_realloc
  dsimp only
  rw [if_neg (by omega : ¬ n = 0), if_neg hp0, if_neg ha0, hlook]
  dsimp only
  rw [if_neg (by rw [hstat]; decide : ¬ nb.status = Status.free)]
  rw [if_neg (by rw [hstat]; simpa using Nat.not_le.mpr hsmall :
    ¬ (nb.status = Status.mapped ∨ MMAP_THRESHOLD ≤ ALIGN (n + META_SIZE)))]
  rw [hlook]
  dsimp only
  rw [if_pos hsize]
  rfl

/-- C9 witness: from a fresh arena, allocate 100 bytes and resize the
result to 100 bytes; the same pointer comes back. -/
theorem C9_realloc_after_malloc_same_ptr_witness :
    (os_realloc (os_malloc (initState fun _ => 3) 100).2
        (os_malloc (initState fun _ => 3) 100).1 100).outPtr =
      some (os_malloc (initState fun _ => 3) 100).1 :=
  C9_realloc_after_malloc_same_ptr (initState fun _ => 3) 100 (by decide)
    (by decide) (by decide) (by decide)

/-- C10: resizing a pointer whose header is already `STATUS_FREE` returns
null and leaves the state — block list, arena bookkeeping and memory —
untouched (src lines 281–282 return before any mutation). -/
theorem C10_realloc_freed_returns_null (st : AState) (p s : Nat) (b : Block)
    (hs : s ≠ 0) (hp : p ≠ 0) (ha : p - META_SIZE ≠ 0)
    (hb : lookupBlock st (p - META_SIZE) = some b)
    (hfree : b.status = .free) :
    os_realloc st p s = .ret 0 st := by
  unfold os_realloc
  dsimp only
  rw [if_neg hs, if_neg hp, if_neg ha, hb]
  dsimp only
  rw [if_pos hfree]

/-- C10 witness: resizing the released 48-byte block at 4096 in
`stTwoFree` returns null with the state unchanged. -/
theorem C10_realloc_freed_returns_null_witness :
    os_realloc stTwoFree 4128 10 = .ret 0 stTwoFree :=
  C10_realloc_freed_returns_null stTwoFree 4128 10 ⟨4096, 48, .free⟩
    (by decide) (by decide) (by decide) (by decide) (by decide)

end OSMem

namespace OSMem

/-! ## Zero-allocation -/

theorem os_malloc_ne_zero (st : AState) (s : Nat) (hs : s ≠ 0) :
    (os_malloc st s).1 ≠ 0 := by
  unfold os_malloc
  dsimp only
  rw [if_neg hs]
  split
  · unfold META_SIZE
    omega
  · split
    · unfold META_SIZE
      omega
    · split
      · unfold META_SIZE
        omega
      · unfold META_SIZE
        omega

/-- C8 (amended): for positive counts whose byte total does not overflow
`size_t`, `os_calloc n k` returns a non-null pointer whose first `n * k`
bytes are all zero; the large-region path is chosen by comparison with the
page size (`PAGE_SIZE`), not the 128 KiB mapping threshold. -/
theorem C8_calloc_zero_amended (st : AState) (n k : Nat) (hn : 0 < n) (hk : 0 < k)
    (h64 : k * n + 39 < 2 ^ 64) :
    (os_calloc st n k).1 ≠ 0 ∧
      ∀ i, i < n * k → (os_calloc st n k).2.mem ((os_calloc st n k).1 + i) = 0 := by
  have hcomm : k * n = n * k := Nat.mul_comm k n
  have hnk : 0 < k * n := Nat.mul_pos hk hn
  have hge : k * n + META_SIZE ≤ ALIGN (k * n + META_SIZE) := by
    apply ALIGN_ge
    unfold META_SIZE
    omega
  unfold os_calloc
  dsimp only
  rw [if_neg (by omega : ¬(k = 0 ∨ n = 0))]
  by_cases hpage : PAGE_SIZE ≤ ALIGN (k * n + META_SIZE)
  · rw [if_pos hpage]
    refine ⟨by unfold META_SIZE; omega, ?_⟩
    intro i hi
    dsimp only
    unfold memsetM
    rw [if_pos ⟨Nat.le_add_right _ _, by unfold META_SIZE at *; omega⟩]
  · rw [if_neg hpage]
    have hmz : (os_malloc st (ALIGN (k * n + META_SIZE) - META_SIZE)).1 ≠ 0 := by
      apply os_malloc_ne_zero
      unfold META_SIZE at *
      omega
    rw [if_pos hmz]
    refine ⟨hmz, ?_⟩
    intro i hi
    dsimp only
    unfold memsetM
    rw [if_pos ⟨Nat.le_add_right _ _, by unfold META_SIZE at *; omega⟩]

/-- C8 witness: `os_calloc 3 5` on a fresh arena whose memory holds 7
everywhere returns a non-null pointer with its first 15 bytes zero. -/
theorem C8_calloc_zero_amended_witness :
    (os_calloc (initState fun _ => 7) 3 5).1 ≠ 0 ∧
      ∀ i, i < 3 * 5 →
        (os_calloc (initState fun _ => 7) 3 5).2.mem
          ((os_calloc (initState fun _ => 7) 3 5).1 + i) = 0 :=
  C8_calloc_zero_amended (initState fun _ => 7) 3 5 (by decide) (by decide) (by decide)

end OSMem

namespace OSMem

/-! ## Content preservation under resize -/

theorem coalesceAtGo_not_free {l : List Block} {a : Nat} (la : Option Nat)
    {b : Block} (h : l.find? (fun c => c.addr == a) = some b)
    (hnf : ¬ b.status = .free) : coalesceAtGo a la l = (l, la) := by
  induction l with
  | nil => simp [List.find?] at h
  | cons c r ih =>
    by_cases hca : c.addr = a
    · have hcb : c = b := by
        have h1 : (c.addr == a) = true := by simp [hca]
        simp only [List.find?, h1] at h
        exact Option.some.inj h
      unfold coalesceAtGo
      rw [if_pos hca, if_neg (hcb ▸ hnf)]
    · have h1 : (c.addr == a) = false := by simp [hca]
      simp only [List.find?, h1] at h
      unfold coalesceAtGo
      rw [if_neg hca, ih h]

theorem coalesce_blocks_id (st : AState) (a : Nat) {b : Block}
    (h : st.blocks.find? (fun c => c.addr == a) = some b)
    (hnf : ¬ b.status = .free) : coalesce_blocks st a = st := by
  unfold coalesce_blocks
  rw [coalesceAtGo_not_free st.last h hnf]

/-- C6: on the small-object path, resizing an allocated block of usable
size `n = b.size - META_SIZE` preserves its first `n` bytes, in every
branch of the resize state machine — in-place split, in-place tail
extension, and relocation with copy (where the copy length, the new
block's usable size, covers the old usable size). -/
theorem C6_realloc_preserves_data (st : AState) (a s : Nat) (b : Block)
    (hwf : WF st)
    (hfind : st.blocks.find? (fun c => c.addr == a) = some b)
    (hstat : b.status = .alloc)
    (ha0 : a ≠ 0)
    (hs : s ≠ 0)
    (hsmall : ALIGN (s + META_SIZE) < MMAP_THRESHOLD)
    (h64 : s + 39 < 2 ^ 64) :
    ∃ q st', os_realloc st (a + META_SIZE) s = .ret q st' ∧ q ≠ 0 ∧
      ∀ i, i < b.size - META_SIZE →
        st'.mem (q + i) = st.mem (a + META_SIZE + i) := by
  have hpos0 : 0 < ALIGN (s + META_SIZE) := by
    have : s + META_SIZE ≤ ALIGN (s + META_SIZE) :=
      ALIGN_ge (by unfold META_SIZE; omega)
    unfold META_SIZE at *
    omega
  have hp0 : ¬ a + META_SIZE = 0 := by unfold META_SIZE; omega
  have hsub : a + META_SIZE - META_SIZE = a := by omega
  have hlook : lookupBlock st a = some b := by
    unfold lookupBlock
    exact find?_append_left hfind
  unfold os_realloc
  dsimp only
  rw [if_neg hs, if_neg hp0, hsub, if_neg ha0, hlook]
  dsimp only
  rw [if_neg (by rw [hstat]; decide : ¬ b.status = Status.free)]
  rw [if_neg (by rw [hstat]; simpa using Nat.not_le.mpr hsmall :
    ¬ (b.status = Status.mapped ∨ MMAP_THRESHOLD ≤ ALIGN (s + META_SIZE)))]
  rw [hlook]
  dsimp only
  by_cases h4 : ALIGN (s + META_SIZE) ≤ b.size
  · rw [if_pos h4]
    refine ⟨a + META_SIZE, _, rfl, hp0, ?_⟩
    intro i _
    rw [split_block_mem]
  · rw [if_neg h4]
    by_cases h5 : st.last = some a
    · rw [if_pos h5]
      exact ⟨a + META_SIZE, _, rfl, hp0, fun i _ => rfl⟩
    · rw [if_neg h5]
      rw [coalesce_blocks_id st a hfind (by rw [hstat]; decide), hlook]
      dsimp only
      rw [if_neg h4]
      obtain ⟨nb, hfind2, hptr2, hstat2, hsize2, haddr2⟩ :=
        os_malloc_spec st s hwf hs hsmall hpos0
      have ha2 : (os_malloc st s).1 - META_SIZE = nb.addr := by
        rw [hptr2]
        omega
      have hlook2 : lookupBlock (os_malloc st s).2
          ((os_malloc st s).1 - META_SIZE) = some nb := by
        unfold lookupBlock
        rw [ha2]
        exact find?_append_left hfind2
      rw [hlook2]
      dsimp only
      refine ⟨(os_malloc st s).1, _, rfl, by rw [hptr2]; unfold META_SIZE; omega, ?_⟩
      intro i hi
      rw [os_free_mem]
      dsimp only
      unfold memcpyM
      rw [if_pos ⟨Nat.le_add_right _ _, by omega⟩]
      rw [os_malloc_mem]
      congr 1
      omega

/-- An arena holding one 48-byte allocated block followed by the free
remainder of the pre-allocation, with byte memory `a % 256`. -/
def stOneAlloc : AState :=
  { blocks := [⟨4096, 48, .alloc⟩, ⟨4144, 131024, .free⟩], last := some 4144
    brk := 135168, prealloc := true, mem := fun a => a % 256, nextMap := 2 ^ 40
    mapped := [] }

/-- C6 witness: resizing the 16-usable-byte block at 4096 of `stOneAlloc`
to 100 bytes relocates it and preserves the 16 bytes. -/
theorem C6_realloc_preserves_data_witness :
    ∃ q st', os_realloc stOneAlloc (4096 + META_SIZE) 100 = .ret q st' ∧ q ≠ 0 ∧
      ∀ i, i < (48 : Nat) - META_SIZE →
        st'.mem (q + i) = stOneAlloc.mem (4096 + META_SIZE + i) :=
  C6_realloc_preserves_data stOneAlloc 4096 100 ⟨4096, 48, .alloc⟩ (by decide)
    (by decide) (by decide) (by decide) (by decide) (by decide) (by decide)

end OSMem

namespace OSMem

/-- C2 (amended): with every block size below the 32-bit `SIZE_MAX`
sentinel the scan starts from, `find_best_fit` returns the `FREE` block of
smallest sufficient size (the earliest in list order among ties); and it
grows the `FREE`, undersized tail in place — adding the shortfall to the
break and setting the tail's size to the request — exactly when no free
block of size *equal* to the request exists, even if larger sufficient
free blocks are present. -/
theorem C2_find_best_fit_amended (st : AState) (req : Nat) (t : Block)
    (hgl : st.blocks.getLast? = some t)
    (hlast : st.last = some t.addr)
    (hpw : st.blocks.Pairwise fun x y => x.addr < y.addr)
    (hsz : ∀ c ∈ st.blocks, c.size < SIZE_MAX)
    (hreq : req < SIZE_MAX) :
    ((t.status = .free ∧ t.size < req ∧
        ¬∃ c ∈ st.blocks, c.status = .free ∧ c.size = req) →
      (find_best_fit st req).1 = some { t with size := req } ∧
        (find_best_fit st req).2.blocks = setSizeL t.addr req st.blocks ∧
        (find_best_fit st req).2.brk = st.brk + (req - t.size)) ∧
    (¬(t.status = .free ∧ t.size < req ∧
        ¬∃ c ∈ st.blocks, c.status = .free ∧ c.size = req) →
      (find_best_fit st req).2 = st ∧
        (((find_best_fit st req).1 = none ∧ ∀ c ∈ st.blocks, ¬ qualifies req c) ∨
          ∃ l1 b l2, st.blocks = l1 ++ b :: l2 ∧
            (find_best_fit st req).1 = some b ∧ qualifies req b ∧
            (∀ c ∈ l1, qualifies req c → b.size < c.size) ∧
            (∀ c ∈ l2, qualifies req c → b.size ≤ c.size))) := by
  have hfind_t : st.blocks.find? (fun c => c.addr == t.addr) = some t :=
    find?_of_mem_pairwise hpw (mem_of_getLast?_eq hgl)
  have hfb : find_best_fit st req =
      (if t.status = .free ∧ t.size < req ∧
          req < (scanGo req st.blocks none SIZE_MAX).2
        then (some { t with size := req },
          { st with blocks := setSizeL t.addr req st.blocks
                    brk := st.brk + (req - t.size) })
        else ((scanGo req st.blocks none SIZE_MAX).1, st)) := by
    unfold find_best_fit
    dsimp only
    rw [hlast]
    dsimp only
    rw [hfind_t]
  rcases scanGo_spec req st.blocks none SIZE_MAX with ⟨heqA, hallA⟩ |
    ⟨l1, b, l2, hsplit, heqB, hqb, hblt, h1, h2⟩
  · have hnq : ∀ c ∈ st.blocks, ¬ qualifies req c := by
      intro c hcm hq
      exact hallA c hcm ⟨hq, hsz c hcm⟩
    have hnex : ¬∃ c ∈ st.blocks, c.status = .free ∧ c.size = req := by
      rintro ⟨c, hcm, hcf, hcs⟩
      exact hnq c hcm ⟨hcf, by omega⟩
    constructor
    · rintro ⟨htf, hts, -⟩
      rw [hfb, heqA,
        if_pos ⟨htf, hts, (hreq : req < ((none : Option Block), SIZE_MAX).2)⟩]
      exact ⟨rfl, rfl, rfl⟩
    · intro hng
      have hcond : ¬(t.status = .free ∧ t.size < req ∧
          req < ((none : Option Block), SIZE_MAX).2) := by
        rintro ⟨htf, hts, -⟩
        exact hng ⟨htf, hts, hnex⟩
      rw [hfb, heqA, if_neg hcond]
      exact ⟨rfl, Or.inl ⟨rfl, hnq⟩⟩
  · have hbmem : b ∈ st.blocks := by
      rw [hsplit]
      exact List.mem_append_right l1 (by simp)
    have hbridge : req < b.size ↔
        ¬∃ c ∈ st.blocks, c.status = .free ∧ c.size = req := by
      constructor
      · rintro hbs ⟨c, hcm, hcf, hcs⟩
        have hcq : qualifies req c := ⟨hcf, by omega⟩
        rw [hsplit] at hcm
        rcases List.mem_append.mp hcm with hcl | hcr
        · have := h1 c hcl hcq
          omega
        · rcases List.mem_cons.mp hcr with hce | hcl2
          · rw [hce] at hcs
            omega
          · have := h2 c hcl2 hcq
            omega
      · intro hnex
        have hne : b.size ≠ req := fun he => hnex ⟨b, hbmem, hqb.1, he⟩
        have := hqb.2
        omega
    constructor
    · rintro ⟨htf, hts, hnex⟩
      rw [hfb, heqB,
        if_pos ⟨htf, hts,
          (hbridge.mpr hnex : req < ((some b : Option Block), b.size).2)⟩]
      exact ⟨rfl, rfl, rfl⟩
    · intro hng
      have hcond : ¬(t.status = .free ∧ t.size < req ∧
          req < ((some b : Option Block), b.size).2) := by
        rintro ⟨htf, hts, hlt2⟩
        exact hng ⟨htf, hts, hbridge.mp hlt2⟩
      rw [hfb, heqB, if_neg hcond]
      exact ⟨rfl, Or.inr ⟨l1, b, l2, hsplit, rfl, hqb, h1, h2⟩⟩

/-- C2 witness: in `stTwoFree` a request of 44 meets the growth condition
(the tail is free and undersized and no exact 44-byte fit exists), so the
tail is grown to 44 and the break advanced by the shortfall. -/
theorem C2_find_best_fit_amended_witness :
    ((⟨4184, 40, .free⟩ : Block).status = .free ∧
        (⟨4184, 40, .free⟩ : Block).size < 44 ∧
        ¬∃ c ∈ stTwoFree.blocks, c.status = .free ∧ c.size = 44) ∧
      (find_best_fit stTwoFree 44).1 =
        some { (⟨4184, 40, .free⟩ : Block) with size := 44 } ∧
      (find_best_fit stTwoFree 44).2.blocks =
        setSizeL 4184 44 stTwoFree.blocks ∧
      (find_best_fit stTwoFree 44).2.brk = stTwoFree.brk + (44 - 40) := by
  have hg : (⟨4184, 40, .free⟩ : Block).status = .free ∧
      (⟨4184, 40, .free⟩ : Block).size < 44 ∧
      ¬∃ c ∈ stTwoFree.blocks, c.status = .free ∧ c.size = 44 := by decide
  have h := (C2_find_best_fit_amended stTwoFree 44 ⟨4184, 40, .free⟩
    (by decide) (by decide) (by decide) (by decide) (by decide)).1 hg
  exact ⟨hg, h.1, h.2.1, h.2.2⟩

end OSMem
